import Mathlib

/-! password_finder: line scanner, password capture and answer prompt.

A shallow embedding of `password_finder_linux.cpp` and
`password_finder_windows.cpp`.

* Bytes are natural numbers (`0 .. 255`); the end-of-file value returned by
  `sbumpc`/`sgetc` is the empty remaining buffer.
* An input file stream is the list of bytes its stream buffer still holds
  together with the `eofbit` and `failbit` flags of the stream.
* The terminal is the list of values successive calls of `getch()` return and
  the list of bytes written to `std::cout`.
-/

namespace PasswordFinder

/-! ## The input stream -/

/-- State of a `std::istream`: the bytes its `streambuf` has not delivered yet
and the two state flags the program can reach. -/
structure IStream where
  buf : List Nat
  eofbit : Bool
  failbit : Bool
deriving DecidableEq, Repr

/-- `is.good()`: no state flag is set. -/
def IStream.good (is : IStream) : Bool := !is.eofbit && !is.failbit

/-- `is.fail()`: tests `failbit` (and `badbit`, which is never set here); the
boolean conversion of a stream used as a loop condition is `!is.fail()`. -/
def IStream.fail (is : IStream) : Bool := is.failbit

/-- A freshly opened file stream over the given file content. -/
def openStream (bytes : List Nat) : IStream :=
  { buf := bytes, eofbit := false, failbit := false }

/-- `std::istream::sentry se(is, true)`: with `noskipws = true` nothing is
extracted; a stream that is not `good()` gets `failbit`. -/
def sentry (is : IStream) : IStream :=
  if is.good then is else { is with failbit := true }

/-- The `while (true)` loop of `getline_safe` over the stream buffer, started
with `str` holding what was accumulated so far.  Result: the remaining buffer,
the final `str`, and whether `is.setstate(eofbit)` was executed. -/
def getline_loop : List Nat → List Nat → List Nat × List Nat × Bool
  | [], str => ([], str, str.isEmpty)
  | c :: rest, str =>
    if c = 10 then (rest, str, false)
    else if c = 13 then
      (match rest with
        | [] => []
        | d :: rest1 => if d = 10 then rest1 else d :: rest1,
       str, false)
    else getline_loop rest (str ++ [c])

/-- `getline_safe(is, str)`: clears `str`, constructs the sentry (whose result
is not tested), then runs the byte loop.  Returns the stream and `str`. -/
def getline_safe (is : IStream) : IStream × List Nat :=
  let is1 := sentry is
  let r := getline_loop is1.buf []
  ({ buf := r.1, eofbit := is1.eofbit || r.2.2, failbit := is1.failbit }, r.2.1)

/-! ## The scan loop of `main` -/

/-- What `main` prints after the scan: `count_records` and `is_found`. -/
structure ScanResult where
  lines_checked : Nat
  found : Bool
deriving DecidableEq, Repr

/-- The loop `while (getline_safe(in_file, str)) { count_records++; if (str ==
password) { is_found = true; break; } }` with `count` the current value of
`count_records`.  The first argument bounds the number of calls of
`getline_safe`; `none` means the bound was too small. -/
def scan_loop (password : List Nat) : Nat → IStream → Nat → Option ScanResult
  | 0, _, _ => none
  | fuel + 1, is, count =>
    let r := getline_safe is
    if r.1.fail then some { lines_checked := count, found := false }
    else if r.2 = password then some { lines_checked := count + 1, found := true }
    else scan_loop password fuel r.1 (count + 1)

/-- The scan of `main` over a file with the given content.  The loop calls
`getline_safe` at most `bytes.length + 2` times (`scan_loop_enough_fuel`). -/
def scan (bytes password : List Nat) : Option ScanResult :=
  scan_loop password (bytes.length + 2) (openStream bytes) 0

/-- The records the loop body would see if no record matched: the value of
`str` after each call of `getline_safe` for which the loop condition held. -/
def delivered : Nat → IStream → List (List Nat)
  | 0, _ => []
  | fuel + 1, is =>
    let r := getline_safe is
    if r.1.fail then [] else r.2 :: delivered fuel r.1

/-- The records delivered to the scan loop for a file with the given content. -/
def records (bytes : List Nat) : List (List Nat) :=
  delivered (bytes.length + 2) (openStream bytes)

/-! ## Specification side of the scanner -/

/-- The logical lines of a stream, `cur` being the piece under construction:
the stream is cut at each LF, each CRLF pair and each bare CR; a final
unterminated piece is a line only when it is non-empty, and nothing is a line
after the last terminator. -/
def logicalLinesFrom : List Nat → List Nat → List (List Nat)
  | [], cur => if cur = [] then [] else [cur]
  | [c], cur => if c = 10 ∨ c = 13 then [cur] else [cur ++ [c]]
  | c :: d :: rest, cur =>
    if c = 13 ∧ d = 10 then cur :: logicalLinesFrom rest []
    else if c = 10 ∨ c = 13 then cur :: logicalLinesFrom (d :: rest) []
    else logicalLinesFrom (d :: rest) (cur ++ [c])

/-- The logical lines of a stream. -/
def logicalLines (bytes : List Nat) : List (List Nat) := logicalLinesFrom bytes []

/-- The result of examining a list of records in order, stopping at the first
one equal to the target. -/
def searchRecords (target : List Nat) : List (List Nat) → Nat → ScanResult
  | [], count => { lines_checked := count, found := false }
  | r :: rs, count =>
    if r = target then { lines_checked := count + 1, found := true }
    else searchRecords target rs (count + 1)

/-- The stream of three lines `alpha`, `secret123`, `beta` separated by LF. -/
def scenarioFile : List Nat :=
  [97, 108, 112, 104, 97, 10, 115, 101, 99, 114, 101, 116, 49, 50, 51, 10, 98, 101, 116, 97]

/-- The target `secret123`. -/
def secret123 : List Nat := [115, 101, 99, 114, 101, 116, 49, 50, 51]

/-- The target `nomatch`. -/
def targetNomatch : List Nat := [110, 111, 109, 97, 116, 99, 104]

/-! ## The password capture loop of `main` -/

/-- The variables the capture loop changes: `password` and the bytes written
to `std::cout` since the loop was entered. -/
structure CaptureState where
  password : List Nat
  console : List Nat
deriving DecidableEq, Repr

/-- Body of the capture loop after `c = getch()`: `erase` is the value `c` is
compared with (127 on Linux, 8 on Windows); the erase sequence written is
backspace, space, backspace.  A key is the byte `getch()` delivers: the
conversion to `int` and the cast `(char) c` give that byte back, and 10, 13,
127 and 8 are the same as `char` and as `int`. -/
def capture_body (erase : Nat) (show_password : Bool) (c : Nat) (st : CaptureState) :
    CaptureState :=
  if c = erase then
    { password := if st.password.length > 0 then st.password.dropLast else st.password,
      console := if show_password then st.console ++ [8, 32, 8] else st.console }
  else
    { password := st.password ++ [c],
      console := if show_password then st.console ++ [c] else st.console }

/-- The loop `while (c != commit) { c = getch(); ... }` over the values the
successive calls of `getch()` return.  The first component tells whether the
loop was left; it is `false` when the keys ran out with the loop still waiting
in `getch()`. -/
def capture_loop (commit erase : Nat) (show_password : Bool) :
    List Nat → Nat → CaptureState → Bool × CaptureState
  | [], c, st => (decide (c = commit), st)
  | key :: rest, c, st =>
    if c = commit then (true, st)
    else capture_loop commit erase show_password rest key
      (capture_body erase show_password key st)

/-- `password.pop_back()`: undefined on an empty string (`none`). -/
def pop_back (s : List Nat) : Option (List Nat) :=
  if s = [] then none else some s.dropLast

/-- Lines 110-127 of the Linux `main`: `password = ""`, `c = 0`, the loop with
commit 10 and erase 127, then `password.pop_back()`.  Result: the password and
the console output, `none` when the loop is never left or `pop_back` is
undefined. -/
def linux_capture (show_password : Bool) (keys : List Nat) : Option (List Nat × List Nat) :=
  let r := capture_loop 10 127 show_password keys 0 { password := [], console := [] }
  if r.1 then (pop_back r.2.password).map (fun p => (p, r.2.console)) else none

/-- Lines 87-107 of the Windows `main`: as on Linux with commit 13 and erase 8,
and `std::cout << std::endl` between the loop and `password.pop_back()`. -/
def windows_capture (show_password : Bool) (keys : List Nat) : Option (List Nat × List Nat) :=
  let r := capture_loop 13 8 show_password keys 0 { password := [], console := [] }
  if r.1 then (pop_back r.2.password).map (fun p => (p, r.2.console ++ [10])) else none

/-- The left fold of the claim: starting from the empty buffer, the erase byte
removes the last byte if there is one and every other byte is appended. -/
def eraseFold (erase : Nat) (keys : List Nat) : List Nat :=
  keys.foldl (fun buf k => if k = erase then buf.dropLast else buf ++ [k]) []

/-- The keystrokes strictly before the first commit byte. -/
def beforeCommit (commit : Nat) (keys : List Nat) : List Nat :=
  keys.takeWhile (fun k => decide (k ≠ commit))

/-! ## The yes/no prompt -/

/-- `::tolower` in the "C" locale (the program never calls `setlocale`): the
upper-case letters `A .. Z` are mapped to `a .. z`, every other byte is kept. -/
def tolower (c : Nat) : Nat := if 65 ≤ c ∧ c ≤ 90 then c + 32 else c

/-- `getline(std::cin, answer)`: the bytes of standard input up to the first
LF, which is not stored. -/
def std_getline (cin : List Nat) : List Nat :=
  cin.takeWhile (fun b => decide (b ≠ 10))

/-- `read_answer()` on the given content of standard input. -/
def read_answer (cin : List Nat) : Bool :=
  let answer := std_getline cin
  let answer := answer.map tolower
  decide (answer = [121]) || decide (answer = [121, 101, 115])

/-- The ten spellings of `y` and `yes` in upper and lower case letters. -/
def affirmativeAnswers : List (List Nat) :=
  [[121], [89],
   [121, 101, 115], [121, 101, 83], [121, 69, 115], [121, 69, 83],
   [89, 101, 115], [89, 101, 83], [89, 69, 115], [89, 69, 83]]

/-! ## Specification side of the later claims -/

/-- A stream with every CR and LF byte removed. -/
def stripTerminators (bytes : List Nat) : List Nat :=
  bytes.filter (fun b => decide (b ≠ 10 ∧ b ≠ 13))

/-- The byte permutation that swaps 10 with 13 and 127 with 8 and fixes every
other byte: it turns the Linux key codes into the Windows ones. -/
def keyPerm (b : Nat) : Nat :=
  if b = 10 then 13 else if b = 13 then 10 else if b = 127 then 8 else if b = 8 then 127 else b

/-- What one key adds to the console in show mode, the echoed byte being
passed through `f`: the erase key gives backspace, space, backspace, every
other key its own byte. -/
def keyEcho (erase : Nat) (f : Nat → Nat) (k : Nat) : List Nat :=
  if k = erase then [8, 32, 8] else [f k]

/-- The keys the capture loop reads: those before the first commit byte and
that commit byte. -/
def keysRead (commit : Nat) (keys : List Nat) : List Nat :=
  beforeCommit commit keys ++ [commit]

/-- A list of records with a final empty record removed: what a stream of
records separated (not terminated) by a line terminator has as logical lines. -/
def dropFinalEmpty : List (List Nat) → List (List Nat)
  | [] => []
  | [r] => if r = [] then [] else [r]
  | r :: r1 :: rs => r :: dropFinalEmpty (r1 :: rs)

/-- The record `alpha`. -/
def alpha : List Nat := [97, 108, 112, 104, 97]

/-- The record `beta`. -/
def beta : List Nat := [98, 101, 116, 97]

/-- The keystrokes `pass`, erase, `word`, commit for the given key codes. -/
def scenarioKeys (commit erase : Nat) : List Nat :=
  [112, 97, 115, 115, erase, 119, 111, 114, 100, commit]

/-- The password `pasword`. -/
def pasword : List Nat := [112, 97, 115, 119, 111, 114, 100]

/-! ## Lemmas on the scanner -/

theorem getline_loop_length (s cur : List Nat) :
    (getline_loop s cur).1.length ≤ s.length := by
  induction s generalizing cur with
  | nil => simp [getline_loop]
  | cons c rest ih =>
    unfold getline_loop
    split_ifs with h10 h13
    · simp
    · cases rest with
      | nil => simp
      | cons d rest1 =>
        by_cases hd : d = 10 <;> simp [hd]
        omega
    · exact Nat.le_succ_of_le (ih _)

theorem getline_loop_length_lt (c : Nat) (rest cur : List Nat) :
    (getline_loop (c :: rest) cur).1.length < (c :: rest).length := by
  unfold getline_loop
  split_ifs with h10 h13
  · simp
  · cases rest with
    | nil => simp
    | cons d rest1 =>
      by_cases hd : d = 10 <;> simp [hd]
      omega
  · exact Nat.lt_succ_of_le (getline_loop_length _ _)

theorem getline_loop_eof (s cur : List Nat) (h : (getline_loop s cur).2.2 = true) :
    s = [] ∧ cur = [] := by
  induction s generalizing cur with
  | nil => simpa [getline_loop] using h
  | cons c rest ih =>
    by_cases h10 : c = 10
    · simp [getline_loop, h10] at h
    · by_cases h13 : c = 13
      · simp [getline_loop, h13] at h
      · simp only [getline_loop, h10, h13, if_false] at h
        have := (ih _ h).2
        simp at this

theorem getline_loop_cons_eof (c : Nat) (rest cur : List Nat) :
    (getline_loop (c :: rest) cur).2.2 = false := by
  cases hb : (getline_loop (c :: rest) cur).2.2 with
  | false => rfl
  | true => exact absurd (getline_loop_eof _ _ hb).1 (by simp)

theorem logicalLinesFrom_lf (t cur : List Nat) :
    logicalLinesFrom (10 :: t) cur = cur :: logicalLinesFrom t [] := by
  cases t with
  | nil => simp [logicalLinesFrom]
  | cons d rest => simp [logicalLinesFrom]

theorem logicalLinesFrom_crlf (t cur : List Nat) :
    logicalLinesFrom (13 :: 10 :: t) cur = cur :: logicalLinesFrom t [] := by
  simp [logicalLinesFrom]

theorem logicalLinesFrom_cr (t cur : List Nat) (h : t.head? ≠ some 10) :
    logicalLinesFrom (13 :: t) cur = cur :: logicalLinesFrom t [] := by
  cases t with
  | nil => simp [logicalLinesFrom]
  | cons d rest =>
    have hd : d ≠ 10 := by simpa using h
    simp [logicalLinesFrom, hd]

theorem logicalLinesFrom_other (c : Nat) (t cur : List Nat) (h10 : c ≠ 10) (h13 : c ≠ 13) :
    logicalLinesFrom (c :: t) cur = logicalLinesFrom t (cur ++ [c]) := by
  cases t with
  | nil => simp [logicalLinesFrom, h10, h13]
  | cons d rest => simp [logicalLinesFrom, h10, h13]

/-- One call of the byte loop delivers the first logical line and leaves the
stream of the remaining ones. -/
theorem logicalLinesFrom_getline_loop (s cur : List Nat) (h : s ≠ [] ∨ cur ≠ []) :
    logicalLinesFrom s cur
      = (getline_loop s cur).2.1 :: logicalLinesFrom (getline_loop s cur).1 [] := by
  induction s generalizing cur with
  | nil =>
    have hc : cur ≠ [] := by simpa using h
    simp [logicalLinesFrom, getline_loop, hc]
  | cons c rest ih =>
    by_cases h10 : c = 10
    · subst h10
      rw [logicalLinesFrom_lf]
      simp [getline_loop]
    · by_cases h13 : c = 13
      · subst h13
        cases rest with
        | nil => simp [logicalLinesFrom, getline_loop]
        | cons d rest1 =>
          by_cases hd : d = 10
          · subst hd
            rw [logicalLinesFrom_crlf]
            simp [getline_loop]
          · rw [logicalLinesFrom_cr _ _ (by simpa using hd)]
            simp [getline_loop, hd]
      · rw [logicalLinesFrom_other c rest cur h10 h13]
        rw [ih (cur ++ [c]) (Or.inr (by simp))]
        simp [getline_loop, h10, h13]

theorem getline_safe_good_nil :
    getline_safe { buf := [], eofbit := false, failbit := false }
      = ({ buf := [], eofbit := true, failbit := false }, []) := by
  decide

theorem getline_safe_at_eof :
    getline_safe { buf := [], eofbit := true, failbit := false }
      = ({ buf := [], eofbit := true, failbit := true }, []) := by
  decide

theorem getline_safe_good_cons (c : Nat) (rest : List Nat) :
    getline_safe { buf := c :: rest, eofbit := false, failbit := false }
      = ({ buf := (getline_loop (c :: rest) []).1, eofbit := false, failbit := false },
         (getline_loop (c :: rest) []).2.1) := by
  simp [getline_safe, sentry, IStream.good, getline_loop_cons_eof]

theorem logicalLines_cons (c : Nat) (rest : List Nat) :
    logicalLines (c :: rest)
      = (getline_loop (c :: rest) []).2.1 :: logicalLines (getline_loop (c :: rest) []).1 :=
  logicalLinesFrom_getline_loop (c :: rest) [] (Or.inl (by simp))

/-- With enough calls allowed, the records delivered from a good stream are
its logical lines followed by one empty record: the call that reaches the end
of the stream with nothing accumulated sets `eofbit` only, so the loop
condition still holds for it. -/
theorem delivered_good (fuel : Nat) : ∀ s : List Nat, s.length + 2 ≤ fuel →
    delivered fuel { buf := s, eofbit := false, failbit := false } = logicalLines s ++ [[]] := by
  induction fuel with
  | zero => intro s h; omega
  | succ fuel ih =>
    intro s h
    cases s with
    | nil =>
      obtain ⟨f, rfl⟩ : ∃ f, fuel = f + 1 := ⟨fuel - 1, by simp at h; omega⟩
      simp [delivered, getline_safe_good_nil, getline_safe_at_eof, IStream.fail, logicalLines,
        logicalLinesFrom]
    | cons c rest =>
      have hlt := getline_loop_length_lt c rest []
      have hfuel : (getline_loop (c :: rest) []).1.length + 2 ≤ fuel := by
        simp at h hlt; omega
      rw [delivered, getline_safe_good_cons]
      simp only [IStream.fail]
      rw [ih _ hfuel, logicalLines_cons]
      simp

/-- With enough calls allowed, the scan loop over a good stream examines the
logical lines followed by one empty record. -/
theorem scan_loop_good (password : List Nat) (fuel : Nat) :
    ∀ (s : List Nat) (count : Nat), s.length + 2 ≤ fuel →
      scan_loop password fuel { buf := s, eofbit := false, failbit := false } count
        = some (searchRecords password (logicalLines s ++ [[]]) count) := by
  induction fuel with
  | zero => intro s count h; omega
  | succ fuel ih =>
    intro s count h
    cases s with
    | nil =>
      obtain ⟨f, rfl⟩ : ∃ f, fuel = f + 1 := ⟨fuel - 1, by simp at h; omega⟩
      by_cases hp : [] = password
      · subst hp
        simp [scan_loop, getline_safe_good_nil, IStream.fail, logicalLines,
          logicalLinesFrom, searchRecords]
      · simp [scan_loop, getline_safe_good_nil, getline_safe_at_eof, IStream.fail, logicalLines,
          logicalLinesFrom, searchRecords, hp]
    | cons c rest =>
      have hlt := getline_loop_length_lt c rest []
      have hfuel : (getline_loop (c :: rest) []).1.length + 2 ≤ fuel := by
        simp at h hlt; omega
      rw [scan_loop, getline_safe_good_cons]
      simp only [IStream.fail]
      rw [ih _ _ hfuel, logicalLines_cons]
      by_cases hp : (getline_loop (c :: rest) []).2.1 = password
      · simp [searchRecords, hp]
      · simp [searchRecords, hp]

/-- The scan loop never needs more than `bytes.length + 2` calls: any larger
bound gives the result of `scan`. -/
theorem scan_loop_enough_fuel (bytes password : List Nat) (fuel : Nat)
    (h : bytes.length + 2 ≤ fuel) :
    scan_loop password fuel (openStream bytes) 0 = scan bytes password := by
  unfold scan openStream
  rw [scan_loop_good password fuel bytes 0 h, scan_loop_good password _ bytes 0 (le_refl _)]

theorem scan_eq (bytes password : List Nat) :
    scan bytes password = some (searchRecords password (logicalLines bytes ++ [[]]) 0) :=
  scan_loop_good password _ bytes 0 (le_refl _)

theorem records_eq (bytes : List Nat) : records bytes = logicalLines bytes ++ [[]] :=
  delivered_good _ bytes (le_refl _)

theorem searchRecords_found_iff (target : List Nat) (rs : List (List Nat)) (count : Nat) :
    (searchRecords target rs count).found = true ↔ target ∈ rs := by
  induction rs generalizing count with
  | nil => simp [searchRecords]
  | cons r rs ih =>
    by_cases hr : r = target
    · simp [searchRecords, hr]
    · have hr2 : ¬ target = r := fun e => hr e.symm
      simp [searchRecords, hr, hr2, ih]

theorem searchRecords_first (target : List Nat) (pre post : List (List Nat)) (count : Nat)
    (h : target ∉ pre) :
    searchRecords target (pre ++ target :: post) count
      = { lines_checked := count + pre.length + 1, found := true } := by
  induction pre generalizing count with
  | nil => simp [searchRecords]
  | cons r pre ih =>
    have hr : ¬ r = target := fun e => h (by simp [e])
    have hpre : target ∉ pre := fun m => h (by simp [m])
    rw [List.cons_append, searchRecords, if_neg hr, ih (count + 1) hpre]
    simp only [List.length_cons, ScanResult.mk.injEq, and_true]
    omega

theorem searchRecords_absent (target : List Nat) (rs : List (List Nat)) (count : Nat)
    (h : target ∉ rs) :
    searchRecords target rs count = { lines_checked := count + rs.length, found := false } := by
  induction rs generalizing count with
  | nil => simp [searchRecords]
  | cons r rs ih =>
    have hr : ¬ r = target := fun e => h (by simp [e])
    have hrs : target ∉ rs := fun m => h (by simp [m])
    simp only [searchRecords, hr, if_false, ih (count + 1) hrs, List.length_cons,
      ScanResult.mk.injEq, and_true]
    omega

theorem scan_found_iff (bytes target : List Nat) :
    ∃ r, scan bytes target = some r ∧
      (r.found = true ↔ (target ∈ logicalLines bytes ∨ target = [])) := by
  refine ⟨_, scan_eq bytes target, ?_⟩
  rw [searchRecords_found_iff]
  simp

theorem scan_absent (bytes target : List Nat) (h : target ∉ logicalLines bytes)
    (hne : target ≠ []) :
    scan bytes target
      = some { lines_checked := (logicalLines bytes).length + 1, found := false } := by
  rw [scan_eq, searchRecords_absent]
  · simp
  · simp [h, hne]

/-! ## Records separated uniformly by one terminator -/

theorem intercalate_cons_cons (sep r r1 : List Nat) (rs : List (List Nat)) :
    List.intercalate sep (r :: r1 :: rs) = r ++ (sep ++ List.intercalate sep (r1 :: rs)) := by
  simp [List.intercalate, List.intersperse]

theorem intercalate_single (sep r : List Nat) : List.intercalate sep [r] = r := by
  simp [List.intercalate, List.intersperse]

theorem logicalLinesFrom_append_record (r t cur : List Nat) (h10 : 10 ∉ r) (h13 : 13 ∉ r) :
    logicalLinesFrom (r ++ t) cur = logicalLinesFrom t (cur ++ r) := by
  induction r generalizing cur with
  | nil => simp
  | cons c r ih =>
    have hc10 : c ≠ 10 := fun e => h10 (by simp [e])
    have hc13 : c ≠ 13 := fun e => h13 (by simp [e])
    have hr10 : 10 ∉ r := fun m => h10 (by simp [m])
    have hr13 : 13 ∉ r := fun m => h13 (by simp [m])
    rw [List.cons_append, logicalLinesFrom_other c _ cur hc10 hc13, ih _ hr10 hr13]
    simp

theorem head_intercalate_cr (rs : List (List Nat)) (h : ∀ r ∈ rs, 10 ∉ r ∧ 13 ∉ r) :
    (List.intercalate [13] rs).head? ≠ some 10 := by
  have key : ∀ (r t : List Nat), 10 ∉ r → t.head? ≠ some 10 → (r ++ t).head? ≠ some 10 := by
    intro r t hr ht
    cases r with
    | nil => simpa using ht
    | cons c r =>
      have hc : c ≠ 10 := fun e => hr (by simp [e])
      simpa using hc
  match rs, h with
  | [], _ => simp [List.intercalate]
  | [r], h =>
    rw [intercalate_single]
    have := key r [] (h r (by simp)).1 (by simp)
    simpa using this
  | r :: r1 :: rs, h =>
    rw [intercalate_cons_cons]
    exact key r _ (h r (by simp)).1 (by simp)

theorem logicalLines_intercalate_lf (rs : List (List Nat)) (h : ∀ r ∈ rs, 10 ∉ r ∧ 13 ∉ r) :
    logicalLines (List.intercalate [10] rs) = dropFinalEmpty rs := by
  match rs, h with
  | [], _ => simp [List.intercalate, logicalLines, logicalLinesFrom, dropFinalEmpty]
  | [r], h =>
    have hr := h r (by simp)
    rw [intercalate_single]
    have := logicalLinesFrom_append_record r [] [] hr.1 hr.2
    simp only [List.append_nil, List.nil_append] at this
    simp [logicalLines, this, logicalLinesFrom, dropFinalEmpty]
  | r :: r1 :: rs, h =>
    have hr := h r (by simp)
    have ih := logicalLines_intercalate_lf (r1 :: rs) (fun x hx => h x (by simp [hx]))
    rw [intercalate_cons_cons]
    unfold logicalLines at ih ⊢
    rw [logicalLinesFrom_append_record r _ [] hr.1 hr.2]
    simp only [List.nil_append, List.singleton_append]
    rw [logicalLinesFrom_lf, ih, dropFinalEmpty]

theorem logicalLines_intercalate_crlf (rs : List (List Nat)) (h : ∀ r ∈ rs, 10 ∉ r ∧ 13 ∉ r) :
    logicalLines (List.intercalate [13, 10] rs) = dropFinalEmpty rs := by
  match rs, h with
  | [], _ => simp [List.intercalate, logicalLines, logicalLinesFrom, dropFinalEmpty]
  | [r], h =>
    have hr := h r (by simp)
    rw [intercalate_single]
    have := logicalLinesFrom_append_record r [] [] hr.1 hr.2
    simp only [List.append_nil, List.nil_append] at this
    simp [logicalLines, this, logicalLinesFrom, dropFinalEmpty]
  | r :: r1 :: rs, h =>
    have hr := h r (by simp)
    have ih := logicalLines_intercalate_crlf (r1 :: rs) (fun x hx => h x (by simp [hx]))
    rw [intercalate_cons_cons]
    unfold logicalLines at ih ⊢
    rw [logicalLinesFrom_append_record r _ [] hr.1 hr.2]
    simp only [List.nil_append, List.cons_append]
    rw [logicalLinesFrom_crlf, ih, dropFinalEmpty]

theorem logicalLines_intercalate_cr (rs : List (List Nat)) (h : ∀ r ∈ rs, 10 ∉ r ∧ 13 ∉ r) :
    logicalLines (List.intercalate [13] rs) = dropFinalEmpty rs := by
  match rs, h with
  | [], _ => simp [List.intercalate, logicalLines, logicalLinesFrom, dropFinalEmpty]
  | [r], h =>
    have hr := h r (by simp)
    rw [intercalate_single]
    have := logicalLinesFrom_append_record r [] [] hr.1 hr.2
    simp only [List.append_nil, List.nil_append] at this
    simp [logicalLines, this, logicalLinesFrom, dropFinalEmpty]
  | r :: r1 :: rs, h =>
    have hr := h r (by simp)
    have hrest : ∀ x ∈ r1 :: rs, 10 ∉ x ∧ 13 ∉ x := fun x hx => h x (by simp [hx])
    have ih := logicalLines_intercalate_cr (r1 :: rs) hrest
    rw [intercalate_cons_cons]
    unfold logicalLines at ih ⊢
    rw [logicalLinesFrom_append_record r _ [] hr.1 hr.2]
    simp only [List.nil_append, List.singleton_append]
    rw [logicalLinesFrom_cr _ _ (head_intercalate_cr _ hrest), ih, dropFinalEmpty]

/-! ## Lemmas on the capture loop -/

theorem capture_body_password (erase : Nat) (sp : Bool) (c : Nat) (st : CaptureState) :
    (capture_body erase sp c st).password
      = if c = erase then st.password.dropLast else st.password ++ [c] := by
  unfold capture_body
  by_cases h : c = erase
  · cases hp : st.password with
    | nil => simp [h]
    | cons a l => simp [h]
  · simp [h]

theorem capture_body_console_masked (erase c : Nat) (st : CaptureState) :
    (capture_body erase false c st).console = st.console := by
  unfold capture_body
  by_cases h : c = erase <;> simp [h]

theorem capture_loop_at_commit (commit erase : Nat) (sp : Bool) (keys : List Nat)
    (st : CaptureState) :
    capture_loop commit erase sp keys commit st = (true, st) := by
  cases keys <;> simp [capture_loop]

theorem beforeCommit_cons_ne (commit key : Nat) (rest : List Nat) (h : key ≠ commit) :
    beforeCommit commit (key :: rest) = key :: beforeCommit commit rest := by
  simp [beforeCommit, List.takeWhile, h]

theorem beforeCommit_cons_self (commit : Nat) (rest : List Nat) :
    beforeCommit commit (commit :: rest) = [] := by
  simp [beforeCommit, List.takeWhile]

/-- The loop is left at the first commit key; the buffer then holds the fold
over the keys before it, followed by the commit byte itself. -/
theorem capture_loop_commit (commit erase : Nat) (sp : Bool) (hce : commit ≠ erase) :
    ∀ (keys : List Nat) (c : Nat) (st : CaptureState), c ≠ commit → commit ∈ keys →
      (capture_loop commit erase sp keys c st).1 = true ∧
      (capture_loop commit erase sp keys c st).2.password
        = (beforeCommit commit keys).foldl
            (fun buf k => if k = erase then buf.dropLast else buf ++ [k]) st.password
          ++ [commit] := by
  intro keys
  induction keys with
  | nil => intro c st _ hm; simp at hm
  | cons key rest ih =>
    intro c st hc hm
    rw [capture_loop, if_neg hc]
    by_cases hk : key = commit
    · subst hk
      rw [capture_loop_at_commit, beforeCommit_cons_self]
      simp [capture_body_password, hce]
    · have hm2 : commit ∈ rest := by
        rcases List.mem_cons.1 hm with e | m
        · exact absurd e.symm hk
        · exact m
      have := ih key (capture_body erase sp key st) hk hm2
      rw [beforeCommit_cons_ne commit key rest hk, List.foldl_cons, ← capture_body_password]
      exact this

theorem capture_loop_console_masked (commit erase : Nat) :
    ∀ (keys : List Nat) (c : Nat) (st : CaptureState),
      (capture_loop commit erase false keys c st).2.console = st.console := by
  intro keys
  induction keys with
  | nil => intro c st; simp [capture_loop]
  | cons key rest ih =>
    intro c st
    rw [capture_loop]
    split_ifs
    · rfl
    · rw [ih, capture_body_console_masked]

theorem eraseFold_replicate (erase n : Nat) :
    ∀ buf : List Nat, buf = [] →
      (List.replicate n erase).foldl
        (fun buf k => if k = erase then buf.dropLast else buf ++ [k]) buf = [] := by
  induction n with
  | zero => intro buf h; simpa using h
  | succ n ih =>
    intro buf h
    rw [List.replicate_succ, List.foldl_cons]
    apply ih
    simp [h]

theorem beforeCommit_append_commit (commit : Nat) (l rest : List Nat) (h : commit ∉ l) :
    beforeCommit commit (l ++ commit :: rest) = l := by
  induction l with
  | nil => simp [beforeCommit_cons_self]
  | cons a l ih =>
    have ha : a ≠ commit := fun e => h (by simp [e])
    have hl : commit ∉ l := fun m => h (by simp [m])
    rw [List.cons_append, beforeCommit_cons_ne _ _ _ ha, ih hl]

theorem not_mem_beforeCommit (commit : Nat) (keys : List Nat) :
    commit ∉ beforeCommit commit keys := by
  intro h
  have := List.mem_takeWhile_imp h
  simp at this

theorem mem_foldl_erase (erase x : Nat) (keys : List Nat) :
    ∀ buf : List Nat,
      x ∈ keys.foldl (fun buf k => if k = erase then buf.dropLast else buf ++ [k]) buf →
      x ∈ buf ∨ x ∈ keys := by
  induction keys with
  | nil => intro buf h; exact Or.inl (by simpa using h)
  | cons k keys ih =>
    intro buf h
    rw [List.foldl_cons] at h
    rcases ih _ h with hb | hk
    · by_cases he : k = erase
      · rw [if_pos he] at hb
        exact Or.inl (List.mem_of_mem_dropLast hb)
      · rw [if_neg he] at hb
        rcases List.mem_append.1 hb with m | m
        · exact Or.inl m
        · exact Or.inr (by simp at m; simp [m])
    · exact Or.inr (by simp [hk])

theorem not_mem_eraseFold_beforeCommit (commit erase : Nat) (keys : List Nat) :
    commit ∉ eraseFold erase (beforeCommit commit keys) := by
  intro h
  rcases mem_foldl_erase erase commit _ [] h with m | m
  · simp at m
  · exact not_mem_beforeCommit commit keys m

/-- The password captured by a loop with distinct commit and erase keys
followed by `pop_back`. -/
theorem capture_then_pop_back (commit erase : Nat) (sp : Bool) (hce : commit ≠ erase)
    (h0 : 0 ≠ commit) (keys : List Nat) (hm : commit ∈ keys) :
    (capture_loop commit erase sp keys 0 { password := [], console := [] }).1 = true ∧
    (capture_loop commit erase sp keys 0 { password := [], console := [] }).2.password ≠ [] ∧
    pop_back (capture_loop commit erase sp keys 0 { password := [], console := [] }).2.password
      = some (eraseFold erase (beforeCommit commit keys)) := by
  obtain ⟨h1, h2⟩ := capture_loop_commit commit erase sp hce keys 0
    { password := [], console := [] } h0 hm
  refine ⟨h1, ?_, ?_⟩
  · rw [h2]; simp
  · rw [h2]
    simp [pop_back, eraseFold]

/-! ## Lemmas on the yes/no prompt -/

theorem std_getline_line (line rest : List Nat) (h : 10 ∉ line) :
    std_getline (line ++ 10 :: rest) = line := by
  induction line with
  | nil => simp [std_getline, List.takeWhile]
  | cons a l ih =>
    have ha : a ≠ 10 := fun e => h (by simp [e])
    have hl : 10 ∉ l := fun m => h (by simp [m])
    have := ih hl
    unfold std_getline at this ⊢
    simpa [List.takeWhile, ha] using this

theorem tolower_eq_y (c : Nat) : tolower c = 121 ↔ (c = 121 ∨ c = 89) := by
  unfold tolower
  split_ifs <;> omega

theorem tolower_eq_e (c : Nat) : tolower c = 101 ↔ (c = 101 ∨ c = 69) := by
  unfold tolower
  split_ifs <;> omega

theorem tolower_eq_s (c : Nat) : tolower c = 115 ↔ (c = 115 ∨ c = 83) := by
  unfold tolower
  split_ifs <;> omega

theorem map_tolower_affirmative (line : List Nat) :
    (line.map tolower = [121] ∨ line.map tolower = [121, 101, 115])
      ↔ line ∈ affirmativeAnswers := by
  match line with
  | [] => simp [affirmativeAnswers]
  | [a] =>
    simp only [List.map, affirmativeAnswers, List.mem_cons, List.cons.injEq, and_true,
      List.mem_singleton, tolower_eq_y]
    simp
  | [a, b] => simp [affirmativeAnswers]
  | [a, b, c] =>
    simp only [List.map, affirmativeAnswers, List.mem_cons, List.cons.injEq, and_true,
      List.mem_singleton, tolower_eq_y, tolower_eq_e, tolower_eq_s]
    simp only [reduceCtorEq, and_false, false_or, List.not_mem_nil, or_false]
    constructor
    · rintro ⟨ha | ha, hb | hb, hc | hc⟩ <;> simp [ha, hb, hc]
    · intro h
      refine ⟨?_, ?_, ?_⟩ <;> omega
  | a :: b :: c :: d :: l => simp [affirmativeAnswers]

/-! ## The claims -/

/-- C1 (the code at a failing input): for the stream `a` LF and the empty
target the scan reports `found = true` after two records, although the only
logical line of the stream is `a` and no logical line is empty. -/
theorem C1_empty_target_found_without_empty_line :
    scan [97, 10] [] = some { lines_checked := 2, found := true } ∧
    logicalLines [97, 10] = [[97]] ∧ ([] : List Nat) ∉ logicalLines [97, 10] := by
  decide

/-- C2: when the logical lines of a stream are `pre`, then the target, then
`post`, and the target is not among `pre`, the scan stops at that line and
reports `lines_checked = pre.length + 1` and `found = true`, whatever follows. -/
theorem C2_scan_stops_at_first_match (bytes target : List Nat) (pre post : List (List Nat))
    (hlines : logicalLines bytes = pre ++ target :: post) (hfirst : target ∉ pre) :
    scan bytes target = some { lines_checked := pre.length + 1, found := true } := by
  rw [scan_eq, hlines, List.append_assoc, List.cons_append,
    searchRecords_first target pre (post ++ [[]]) 0 hfirst]
  simp

/-- C2 at `alpha`, `secret123`, `beta` separated by LF with target `secret123`:
two lines are checked and the target is found. -/
theorem C2_scan_stops_at_first_match_witness :
    logicalLines scenarioFile = [alpha] ++ secret123 :: [beta] ∧ secret123 ∉ [alpha] ∧
    scan scenarioFile secret123 = some { lines_checked := 2, found := true } :=
  ⟨by decide, by decide,
    C2_scan_stops_at_first_match scenarioFile secret123 [alpha] [beta] (by decide) (by decide)⟩

/-- C3 (the code at a failing input): for `alpha`, `secret123`, `beta`
separated by LF and the target `nomatch`, which equals none of the three
logical lines, the scan reports `lines_checked = 4`, not 3: the empty record
delivered at the end of the stream is counted. -/
theorem C3_no_match_counts_one_more :
    scan scenarioFile targetNomatch = some { lines_checked := 4, found := false } ∧
    (logicalLines scenarioFile).length = 3 ∧ targetNomatch ∉ logicalLines scenarioFile := by
  decide

/-- C4: for records free of CR and LF, the records delivered to the scan loop
are the same whether consecutive records are separated by LF, by CRLF or by a
bare CR, and so is the scan result for every target. -/
theorem C4_same_records_for_lf_crlf_cr (rs : List (List Nat))
    (h : ∀ r ∈ rs, 10 ∉ r ∧ 13 ∉ r) :
    records (List.intercalate [13, 10] rs) = records (List.intercalate [10] rs) ∧
    records (List.intercalate [13] rs) = records (List.intercalate [10] rs) ∧
    ∀ target : List Nat,
      scan (List.intercalate [13, 10] rs) target = scan (List.intercalate [10] rs) target ∧
      scan (List.intercalate [13] rs) target = scan (List.intercalate [10] rs) target := by
  have hlf := logicalLines_intercalate_lf rs h
  have hcrlf := logicalLines_intercalate_crlf rs h
  have hcr := logicalLines_intercalate_cr rs h
  refine ⟨?_, ?_, fun target => ⟨?_, ?_⟩⟩
  · rw [records_eq, records_eq, hlf, hcrlf]
  · rw [records_eq, records_eq, hlf, hcr]
  · rw [scan_eq, scan_eq, hlf, hcrlf]
  · rw [scan_eq, scan_eq, hlf, hcr]

/-- C4 at the records `alpha`, `secret123`, `beta`: the three streams deliver
the same records and give the same result for the target `secret123`. -/
theorem C4_same_records_for_lf_crlf_cr_witness :
    (∀ r ∈ [alpha, secret123, beta], 10 ∉ r ∧ 13 ∉ r) ∧
    records (List.intercalate [13, 10] [alpha, secret123, beta])
      = records (List.intercalate [10] [alpha, secret123, beta]) ∧
    scan (List.intercalate [13] [alpha, secret123, beta]) secret123
      = scan (List.intercalate [10] [alpha, secret123, beta]) secret123 :=
  ⟨by decide,
    (C4_same_records_for_lf_crlf_cr [alpha, secret123, beta] (by decide)).1,
    ((C4_same_records_for_lf_crlf_cr [alpha, secret123, beta] (by decide)).2.2 secret123).2⟩

/-- C5: for keystrokes containing the commit byte, the password held after the
capture loop and `pop_back` is the fold over the keystrokes before the first
commit byte in which the erase byte removes the last byte, if any, and every
other byte is appended; the commit byte is not in it.  Linux: commit 10, erase
127; Windows: commit 13, erase 8. -/
theorem C5_captured_password_is_fold (show_password : Bool) (keys : List Nat) :
    (10 ∈ keys →
      (linux_capture show_password keys).map Prod.fst
        = some (eraseFold 127 (beforeCommit 10 keys)) ∧
      10 ∉ eraseFold 127 (beforeCommit 10 keys)) ∧
    (13 ∈ keys →
      (windows_capture show_password keys).map Prod.fst
        = some (eraseFold 8 (beforeCommit 13 keys)) ∧
      13 ∉ eraseFold 8 (beforeCommit 13 keys)) := by
  constructor
  · intro hm
    obtain ⟨h1, _, h3⟩ :=
      capture_then_pop_back 10 127 show_password (by decide) (by decide) keys hm
    refine ⟨?_, not_mem_eraseFold_beforeCommit 10 127 keys⟩
    simp [linux_capture, h1, h3]
  · intro hm
    obtain ⟨h1, _, h3⟩ :=
      capture_then_pop_back 13 8 show_password (by decide) (by decide) keys hm
    refine ⟨?_, not_mem_eraseFold_beforeCommit 13 8 keys⟩
    simp [windows_capture, h1, h3]

/-- C5 at `pass`, erase, `word`, commit: the captured password is `pasword` on
both platforms. -/
theorem C5_captured_password_is_fold_witness :
    10 ∈ scenarioKeys 10 127 ∧ 13 ∈ scenarioKeys 13 8 ∧
    (linux_capture true (scenarioKeys 10 127)).map Prod.fst = some pasword ∧
    (windows_capture true (scenarioKeys 13 8)).map Prod.fst = some pasword :=
  ⟨by decide, by decide,
    ((C5_captured_password_is_fold true (scenarioKeys 10 127)).1 (by decide)).1,
    ((C5_captured_password_is_fold true (scenarioKeys 13 8)).2 (by decide)).1⟩

/-- C6 (the code on the empty stream): for every non-empty target the scan of
the empty stream examines one record, the empty one delivered by the call that
sets `eofbit`, and reports `lines_checked = 1`, not 0, with `found = false`. -/
theorem C6_empty_stream_counts_one (target : List Nat) (h : target ≠ []) :
    scan [] target = some { lines_checked := 1, found := false } ∧ records [] = [[]] := by
  refine ⟨?_, by decide⟩
  have hl : target ∉ logicalLines [] := by simp [logicalLines, logicalLinesFrom]
  rw [scan_absent [] target hl h]
  simp [logicalLines, logicalLinesFrom]

/-- C6 at the target `nomatch`: one record is examined on the empty stream. -/
theorem C6_empty_stream_counts_one_witness :
    targetNomatch ≠ [] ∧
    scan [] targetNomatch = some { lines_checked := 1, found := false } :=
  ⟨by decide, (C6_empty_stream_counts_one targetNomatch (by decide)).1⟩

/-- C7: for keystrokes containing the commit byte the capture loop is left
with a non-empty buffer (the commit byte was appended last), so the final
`pop_back` is defined; erase keys followed by commit, and commit alone, give
the empty password.  Linux and Windows. -/
theorem C7_pop_back_never_underflows (show_password : Bool) (keys : List Nat) (n : Nat) :
    (10 ∈ keys →
      (capture_loop 10 127 show_password keys 0 { password := [], console := [] }).1 = true ∧
      (capture_loop 10 127 show_password keys 0
        { password := [], console := [] }).2.password ≠ [] ∧
      (linux_capture show_password keys).isSome = true) ∧
    (13 ∈ keys →
      (capture_loop 13 8 show_password keys 0 { password := [], console := [] }).1 = true ∧
      (capture_loop 13 8 show_password keys 0
        { password := [], console := [] }).2.password ≠ [] ∧
      (windows_capture show_password keys).isSome = true) ∧
    (linux_capture show_password (List.replicate n 127 ++ [10])).map Prod.fst = some [] ∧
    (windows_capture show_password (List.replicate n 8 ++ [13])).map Prod.fst = some [] := by
  refine ⟨?_, ?_, ?_, ?_⟩
  · intro hm
    obtain ⟨h1, h2, h3⟩ :=
      capture_then_pop_back 10 127 show_password (by decide) (by decide) keys hm
    refine ⟨h1, h2, ?_⟩
    simp [linux_capture, h1, h3]
  · intro hm
    obtain ⟨h1, h2, h3⟩ :=
      capture_then_pop_back 13 8 show_password (by decide) (by decide) keys hm
    refine ⟨h1, h2, ?_⟩
    simp [windows_capture, h1, h3]
  · obtain ⟨h1, _, h3⟩ :=
      capture_then_pop_back 10 127 show_password (by decide) (by decide)
        (List.replicate n 127 ++ [10]) (by simp)
    have hb : beforeCommit 10 (List.replicate n 127 ++ [10]) = List.replicate n 127 :=
      beforeCommit_append_commit 10 _ [] (by simp [List.mem_replicate])
    simp [linux_capture, h1, h3, hb, eraseFold, eraseFold_replicate 127 n [] rfl]
  · obtain ⟨h1, _, h3⟩ :=
      capture_then_pop_back 13 8 show_password (by decide) (by decide)
        (List.replicate n 8 ++ [13]) (by simp)
    have hb : beforeCommit 13 (List.replicate n 8 ++ [13]) = List.replicate n 8 :=
      beforeCommit_append_commit 13 _ [] (by simp [List.mem_replicate])
    simp [windows_capture, h1, h3, hb, eraseFold, eraseFold_replicate 8 n [] rfl]

/-- C7 at the commit key alone and at two erase keys followed by commit, on
Linux: the buffer left by the loop is non-empty and the password is empty. -/
theorem C7_pop_back_never_underflows_witness :
    10 ∈ [10] ∧
    (capture_loop 10 127 false [10] 0 { password := [], console := [] }).2.password ≠ [] ∧
    (linux_capture false [10]).isSome = true ∧
    (linux_capture false [127, 127, 10]).map Prod.fst = some [] :=
  ⟨by decide,
    ((C7_pop_back_never_underflows false [10] 2).1 (by decide)).2.1,
    ((C7_pop_back_never_underflows false [10] 2).1 (by decide)).2.2,
    (C7_pop_back_never_underflows false [10] 2).2.2.1⟩

/-- C8 (the code at a failing input): with `show_password = true` and an empty
buffer, reading the erase key leaves the buffer empty but writes backspace,
space, backspace to the console, on Linux (127) and on Windows (8); the whole
Linux capture of erase, commit writes that sequence and the echoed commit. -/
theorem C8_erase_on_empty_buffer_writes (console : List Nat) :
    capture_body 127 true 127 { password := [], console := console }
      = { password := [], console := console ++ [8, 32, 8] } ∧
    capture_body 8 true 8 { password := [], console := console }
      = { password := [], console := console ++ [8, 32, 8] } ∧
    linux_capture true [127, 10] = some ([], [8, 32, 8, 10]) := by
  refine ⟨?_, ?_, by decide⟩ <;> simp [capture_body]

/-- C9: with `show_password = false` the capture loop writes nothing to the
console, whatever keys are read and whether or not the commit key is among
them: the output inside the loop is empty for every keystroke sequence, hence
the same for any two.  Linux and Windows. -/
theorem C9_masked_capture_writes_nothing (keys keys2 : List Nat) :
    (capture_loop 10 127 false keys 0 { password := [], console := [] }).2.console = [] ∧
    (capture_loop 13 8 false keys 0 { password := [], console := [] }).2.console = [] ∧
    (capture_loop 10 127 false keys 0 { password := [], console := [] }).2.console
      = (capture_loop 10 127 false keys2 0 { password := [], console := [] }).2.console ∧
    (capture_loop 13 8 false keys 0 { password := [], console := [] }).2.console
      = (capture_loop 13 8 false keys2 0 { password := [], console := [] }).2.console := by
  simp [capture_loop_console_masked]

/-- C10: for an answer line (no LF in it) followed by LF on standard input,
`read_answer` returns true exactly when the line mapped to lower case is `y`
or `yes`, that is when it is one of the ten upper/lower case spellings of `y`
and `yes`; the empty line and ` y` and `y ` return false. -/
theorem C10_read_answer_affirmative (line rest : List Nat) (h : 10 ∉ line) :
    (read_answer (line ++ 10 :: rest) = true
      ↔ (line.map tolower = [121] ∨ line.map tolower = [121, 101, 115])) ∧
    (read_answer (line ++ 10 :: rest) = true ↔ line ∈ affirmativeAnswers) ∧
    read_answer (10 :: rest) = false ∧
    read_answer (32 :: 121 :: 10 :: rest) = false ∧
    read_answer (121 :: 32 :: 10 :: rest) = false := by
  have hiff : read_answer (line ++ 10 :: rest) = true
      ↔ (line.map tolower = [121] ∨ line.map tolower = [121, 101, 115]) := by
    simp [read_answer, std_getline_line line rest h]
  refine ⟨hiff, hiff.trans (map_tolower_affirmative line), ?_, ?_, ?_⟩
  · simp [read_answer, std_getline, List.takeWhile]
  · simp [read_answer, std_getline, List.takeWhile, tolower]
  · simp [read_answer, std_getline, List.takeWhile, tolower]

/-- C10 at the line `YeS`: the answer is affirmative. -/
theorem C10_read_answer_affirmative_witness :
    10 ∉ [89, 101, 83] ∧ read_answer [89, 101, 83, 10] = true :=
  ⟨by decide,
    (C10_read_answer_affirmative [89, 101, 83] [] (by decide)).1.2 (Or.inr (by decide))⟩

/-! ## Further lemmas -/

theorem foldl_erase_ordinary (erase : Nat) (cs : List Nat) (h : erase ∉ cs) :
    ∀ buf : List Nat,
      cs.foldl (fun buf k => if k = erase then buf.dropLast else buf ++ [k]) buf = buf ++ cs := by
  induction cs with
  | nil => intro buf; simp
  | cons c cs ih =>
    intro buf
    have hc : c ≠ erase := fun e => h (by simp [e])
    have hcs : erase ∉ cs := fun m => h (by simp [m])
    rw [List.foldl_cons, if_neg hc, ih hcs]
    simp

/-- Ordinary keys followed by the commit key: the loop leaves the keys and the
commit byte in the buffer, and `pop_back` removes the commit byte. -/
theorem capture_ordinary_keys (commit erase : Nat) (sp : Bool) (hce : commit ≠ erase)
    (h0 : 0 ≠ commit) (cs : List Nat) (hc : commit ∉ cs) (he : erase ∉ cs) :
    (capture_loop commit erase sp (cs ++ [commit]) 0
      { password := [], console := [] }).2.password = cs ++ [commit] ∧
    pop_back (capture_loop commit erase sp (cs ++ [commit]) 0
      { password := [], console := [] }).2.password = some cs := by
  obtain ⟨_, h2⟩ := capture_loop_commit commit erase sp hce (cs ++ [commit]) 0
    { password := [], console := [] } h0 (by simp)
  obtain ⟨_, _, h3⟩ := capture_then_pop_back commit erase sp hce h0 (cs ++ [commit]) (by simp)
  have hb : beforeCommit commit (cs ++ [commit]) = cs := beforeCommit_append_commit commit cs [] hc
  rw [hb] at h2 h3
  constructor
  · rw [h2, foldl_erase_ordinary erase cs he]
    simp
  · rw [h3, eraseFold, foldl_erase_ordinary erase cs he]
    simp

/-! ## The claims, continued -/

/-- C11 (the claim fails): after the ordinary keys `a`, `b` and the commit key
the captured password is `ab` on both platforms, not `a`: the last real
character is not dropped. -/
theorem C11_last_character_not_dropped :
    ¬ ((linux_capture false [97, 98, 10]).map Prod.fst = some [97]) ∧
    ¬ ((windows_capture false [97, 98, 13]).map Prod.fst = some [97]) ∧
    (linux_capture false [97, 98, 10]).map Prod.fst = some [97, 98] ∧
    (windows_capture false [97, 98, 13]).map Prod.fst = some [97, 98] := by
  decide

/-- C11 (amended): the commit key is appended to the buffer by the loop body
before the loop condition ends the loop, so the final `pop_back` removes
exactly the commit byte: for ordinary characters `cs`, none equal to the commit
or the erase byte, followed by commit, the buffer after the loop is `cs`
followed by the commit byte and the captured password is `cs`. -/
theorem C11_pop_back_removes_commit_byte (show_password : Bool) (cs : List Nat) :
    ((∀ c ∈ cs, c ≠ 10 ∧ c ≠ 127) →
      (capture_loop 10 127 show_password (cs ++ [10]) 0
        { password := [], console := [] }).2.password = cs ++ [10] ∧
      (linux_capture show_password (cs ++ [10])).map Prod.fst = some cs) ∧
    ((∀ c ∈ cs, c ≠ 13 ∧ c ≠ 8) →
      (capture_loop 13 8 show_password (cs ++ [13]) 0
        { password := [], console := [] }).2.password = cs ++ [13] ∧
      (windows_capture show_password (cs ++ [13])).map Prod.fst = some cs) := by
  constructor
  · intro h
    have hc : 10 ∉ cs := fun m => (h 10 m).1 rfl
    have he : 127 ∉ cs := fun m => (h 127 m).2 rfl
    obtain ⟨h1, _⟩ := capture_loop_commit 10 127 show_password (by decide) (cs ++ [10]) 0
      { password := [], console := [] } (by decide) (by simp)
    obtain ⟨h2, h3⟩ :=
      capture_ordinary_keys 10 127 show_password (by decide) (by decide) cs hc he
    refine ⟨h2, ?_⟩
    simp [linux_capture, h1, h3]
  · intro h
    have hc : 13 ∉ cs := fun m => (h 13 m).1 rfl
    have he : 8 ∉ cs := fun m => (h 8 m).2 rfl
    obtain ⟨h1, _⟩ := capture_loop_commit 13 8 show_password (by decide) (cs ++ [13]) 0
      { password := [], console := [] } (by decide) (by simp)
    obtain ⟨h2, h3⟩ :=
      capture_ordinary_keys 13 8 show_password (by decide) (by decide) cs hc he
    refine ⟨h2, ?_⟩
    simp [windows_capture, h1, h3]

/-- C11 (amended) at the keys `a`, `b`, commit: the password is `ab` on both
platforms. -/
theorem C11_pop_back_removes_commit_byte_witness :
    (∀ c ∈ [97, 98], c ≠ 10 ∧ c ≠ 127) ∧ (∀ c ∈ [97, 98], c ≠ 13 ∧ c ≠ 8) ∧
    (linux_capture true [97, 98, 10]).map Prod.fst = some [97, 98] ∧
    (windows_capture true [97, 98, 13]).map Prod.fst = some [97, 98] :=
  ⟨by decide, by decide,
    ((C11_pop_back_removes_commit_byte true [97, 98]).1 (by decide)).2,
    ((C11_pop_back_removes_commit_byte true [97, 98]).2 (by decide)).2⟩

/-- Two streams that continue, after a common beginning, with tails that have
the same logical lines and do not start with LF have the same logical lines. -/
theorem logicalLinesFrom_congr_tail (t1 t2 : List Nat) (h1 : t1.head? ≠ some 10)
    (h2 : t2.head? ≠ some 10)
    (h : ∀ cur, logicalLinesFrom t1 cur = logicalLinesFrom t2 cur) :
    ∀ (p cur : List Nat), logicalLinesFrom (p ++ t1) cur = logicalLinesFrom (p ++ t2) cur
  | [], cur => by simpa using h cur
  | [c], cur => by
    by_cases h10 : c = 10
    · subst h10
      simp only [List.singleton_append]
      rw [logicalLinesFrom_lf, logicalLinesFrom_lf, h []]
    · by_cases h13 : c = 13
      · subst h13
        simp only [List.singleton_append]
        rw [logicalLinesFrom_cr _ _ h1, logicalLinesFrom_cr _ _ h2, h []]
      · simp only [List.singleton_append]
        rw [logicalLinesFrom_other c _ cur h10 h13, logicalLinesFrom_other c _ cur h10 h13, h]
  | c :: d :: q, cur => by
    have ih1 := logicalLinesFrom_congr_tail t1 t2 h1 h2 h (d :: q)
    have ih2 := logicalLinesFrom_congr_tail t1 t2 h1 h2 h q
    by_cases h10 : c = 10
    · subst h10
      simp only [List.cons_append] at ih1 ⊢
      rw [logicalLinesFrom_lf, logicalLinesFrom_lf, ih1 []]
    · by_cases h13 : c = 13
      · subst h13
        by_cases hd : d = 10
        · subst hd
          simp only [List.cons_append]
          rw [logicalLinesFrom_crlf, logicalLinesFrom_crlf, ih2 []]
        · simp only [List.cons_append] at ih1 ⊢
          rw [logicalLinesFrom_cr _ _ (by simpa using hd),
            logicalLinesFrom_cr _ _ (by simpa using hd), ih1 []]
      · simp only [List.cons_append] at ih1 ⊢
        rw [logicalLinesFrom_other c _ cur h10 h13, logicalLinesFrom_other c _ cur h10 h13,
          ih1 (cur ++ [c])]

/-- A final byte that is no terminator, followed by one terminator, gives the
same logical lines as that byte alone. -/
theorem logicalLines_trailing_terminator (s : List Nat) (b : Nat) (h10 : b ≠ 10)
    (h13 : b ≠ 13) :
    logicalLines (s ++ [b] ++ [10]) = logicalLines (s ++ [b]) ∧
    logicalLines (s ++ [b] ++ [13]) = logicalLines (s ++ [b]) ∧
    logicalLines (s ++ [b] ++ [13, 10]) = logicalLines (s ++ [b]) := by
  have hb : ([b] : List Nat).head? ≠ some 10 := by simpa using h10
  have hone : ∀ cur, logicalLinesFrom [b] cur = [cur ++ [b]] := by
    intro cur
    simp [logicalLinesFrom, h10, h13]
  unfold logicalLines
  refine ⟨?_, ?_, ?_⟩
  · rw [List.append_assoc]
    refine logicalLinesFrom_congr_tail _ _ (by simpa using h10) hb ?_ s []
    intro cur
    simp [logicalLinesFrom, h10, h13]
  · rw [List.append_assoc]
    refine logicalLinesFrom_congr_tail _ _ (by simpa using h10) hb ?_ s []
    intro cur
    simp [logicalLinesFrom, h10, h13]
  · rw [List.append_assoc]
    refine logicalLinesFrom_congr_tail _ _ (by simpa using h10) hb ?_ s []
    intro cur
    rw [hone]
    simp only [List.singleton_append]
    rw [logicalLinesFrom_other b _ cur h10 h13]
    simp [logicalLinesFrom]

/-- C12: for a non-empty stream whose last byte is neither CR nor LF, appending
one LF, one CR or CRLF changes neither the records delivered to the scan loop
nor the scan result for any target. -/
theorem C12_missing_final_terminator (s : List Nat) (hne : s ≠ [])
    (h10 : s.getLast hne ≠ 10) (h13 : s.getLast hne ≠ 13) :
    records (s ++ [10]) = records s ∧
    records (s ++ [13]) = records s ∧
    records (s ++ [13, 10]) = records s ∧
    ∀ target : List Nat,
      scan (s ++ [10]) target = scan s target ∧
      scan (s ++ [13]) target = scan s target ∧
      scan (s ++ [13, 10]) target = scan s target := by
  have hs : s.dropLast ++ [s.getLast hne] = s := List.dropLast_append_getLast hne
  obtain ⟨a, b, c⟩ := logicalLines_trailing_terminator s.dropLast (s.getLast hne) h10 h13
  rw [hs] at a b c
  refine ⟨?_, ?_, ?_, fun target => ⟨?_, ?_, ?_⟩⟩
  · rw [records_eq, records_eq, a]
  · rw [records_eq, records_eq, b]
  · rw [records_eq, records_eq, c]
  · rw [scan_eq, scan_eq, a]
  · rw [scan_eq, scan_eq, b]
  · rw [scan_eq, scan_eq, c]

/-- C12 at `alpha`, `secret123`, `beta` separated by LF, whose last line is
unterminated: with a final LF the records and the result for `secret123` are
the same. -/
theorem C12_missing_final_terminator_witness :
    scenarioFile.getLast (by decide) ≠ 10 ∧ scenarioFile.getLast (by decide) ≠ 13 ∧
    records (scenarioFile ++ [10]) = records scenarioFile ∧
    scan (scenarioFile ++ [13, 10]) secret123 = scan scenarioFile secret123 :=
  ⟨by decide, by decide,
    (C12_missing_final_terminator scenarioFile (by decide) (by decide) (by decide)).1,
    ((C12_missing_final_terminator scenarioFile (by decide) (by decide) (by decide)).2.2.2
      secret123).2.2⟩

theorem getline_loop_no_terminator (s : List Nat) :
    ∀ cur : List Nat, 10 ∉ cur → 13 ∉ cur →
      10 ∉ (getline_loop s cur).2.1 ∧ 13 ∉ (getline_loop s cur).2.1 := by
  induction s with
  | nil => intro cur h10 h13; simpa [getline_loop] using ⟨h10, h13⟩
  | cons c rest ih =>
    intro cur h10 h13
    by_cases hc10 : c = 10
    · simpa [getline_loop, hc10] using ⟨h10, h13⟩
    · by_cases hc13 : c = 13
      · simpa [getline_loop, hc13] using ⟨h10, h13⟩
      · simp only [getline_loop, hc10, hc13, if_false]
        apply ih
        · simp [h10, Ne.symm hc10]
        · simp [h13, Ne.symm hc13]

theorem getline_safe_no_terminator (is : IStream) :
    10 ∉ (getline_safe is).2 ∧ 13 ∉ (getline_safe is).2 := by
  unfold getline_safe
  exact getline_loop_no_terminator _ [] (by simp) (by simp)

theorem delivered_no_terminator (fuel : Nat) :
    ∀ is : IStream, ∀ r ∈ delivered fuel is, 10 ∉ r ∧ 13 ∉ r := by
  induction fuel with
  | zero => intro is r hr; simp [delivered] at hr
  | succ fuel ih =>
    intro is r hr
    rw [delivered] at hr
    by_cases hf : (getline_safe is).1.fail = true
    · simp [hf] at hr
    · simp only [hf, if_false, Bool.false_eq_true] at hr
      rcases List.mem_cons.1 hr with e | m
      · rw [e]; exact getline_safe_no_terminator is
      · exact ih _ r m

theorem records_length (bytes : List Nat) :
    (records bytes).length = (logicalLines bytes).length + 1 := by
  rw [records_eq]; simp

theorem scan_not_delivered (bytes target : List Nat) (h : target ∉ records bytes) :
    scan bytes target = some { lines_checked := (records bytes).length, found := false } := by
  rw [scan_eq, searchRecords_absent target _ 0 (by rw [← records_eq]; exact h),
    ← records_eq]
  simp

/-- C13: no record that `getline_safe` stores in `str` contains LF or CR, in
whatever state the stream is; so no record delivered to the scan loop does,
and a target containing CR or LF is never found: every record is examined and
`found = false` is reported. -/
theorem C13_records_hold_no_terminator (is : IStream) (bytes target : List Nat) :
    (10 ∉ (getline_safe is).2 ∧ 13 ∉ (getline_safe is).2) ∧
    (∀ r ∈ records bytes, 10 ∉ r ∧ 13 ∉ r) ∧
    ((10 ∈ target ∨ 13 ∈ target) →
      scan bytes target
        = some { lines_checked := (records bytes).length, found := false }) := by
  refine ⟨getline_safe_no_terminator is, delivered_no_terminator _ _, ?_⟩
  intro ht
  apply scan_not_delivered
  intro hm
  have := delivered_no_terminator _ _ target hm
  rcases ht with h | h
  · exact this.1 h
  · exact this.2 h

/-- C13 at the stream `a` CR LF `b` and the target `a` CR: the target is not
found and the three delivered records are examined. -/
theorem C13_records_hold_no_terminator_witness :
    (10 ∈ [97, 13] ∨ 13 ∈ [97, 13]) ∧
    scan [97, 13, 10, 98] [97, 13] = some { lines_checked := 3, found := false } :=
  ⟨by decide,
    (C13_records_hold_no_terminator (openStream []) [97, 13, 10, 98] [97, 13]).2.2
      (by decide)⟩

theorem getline_loop_strip (s : List Nat) :
    ∀ cur : List Nat,
      (getline_loop s cur).2.1 ++ stripTerminators (getline_loop s cur).1
        = cur ++ stripTerminators s := by
  induction s with
  | nil => intro cur; simp [getline_loop, stripTerminators]
  | cons c rest ih =>
    intro cur
    by_cases hc10 : c = 10
    · simp [getline_loop, hc10, stripTerminators]
    · by_cases hc13 : c = 13
      · cases rest with
        | nil => simp [getline_loop, hc13, stripTerminators]
        | cons d rest1 =>
          by_cases hd : d = 10
          · simp [getline_loop, hc13, hd, stripTerminators]
          · simp [getline_loop, hc13, hd, stripTerminators]
      · simp only [getline_loop, hc10, hc13, if_false]
        rw [ih]
        simp [stripTerminators, hc10, hc13]

theorem logicalLines_flatten (n : Nat) :
    ∀ s : List Nat, s.length ≤ n → (logicalLines s).flatten = stripTerminators s := by
  induction n with
  | zero =>
    intro s h
    have : s = [] := List.length_eq_zero.1 (Nat.le_zero.1 h)
    subst this
    simp [logicalLines, logicalLinesFrom, stripTerminators]
  | succ n ih =>
    intro s h
    cases s with
    | nil => simp [logicalLines, logicalLinesFrom, stripTerminators]
    | cons c rest =>
      have hlt := getline_loop_length_lt c rest []
      have hle : (getline_loop (c :: rest) []).1.length ≤ n := by
        simp at h hlt; omega
      rw [logicalLines_cons, List.flatten_cons, ih _ hle, getline_loop_strip]
      simp

theorem logicalLines_length_le (n : Nat) :
    ∀ s : List Nat, s.length ≤ n → (logicalLines s).length ≤ s.length := by
  induction n with
  | zero =>
    intro s h
    have : s = [] := List.length_eq_zero.1 (Nat.le_zero.1 h)
    subst this
    simp [logicalLines, logicalLinesFrom]
  | succ n ih =>
    intro s h
    cases s with
    | nil => simp [logicalLines, logicalLinesFrom]
    | cons c rest =>
      have hlt := getline_loop_length_lt c rest []
      have hle : (getline_loop (c :: rest) []).1.length ≤ n := by
        simp at h hlt; omega
      have := ih _ hle
      rw [logicalLines_cons, List.length_cons]
      omega

theorem searchRecords_lines_checked_le (target : List Nat) (rs : List (List Nat)) :
    ∀ count : Nat, (searchRecords target rs count).lines_checked ≤ count + rs.length := by
  induction rs with
  | nil => intro count; simp [searchRecords]
  | cons r rs ih =>
    intro count
    by_cases hr : r = target
    · simp only [searchRecords, hr, if_true, List.length_cons]
      omega
    · have := ih (count + 1)
      simp only [searchRecords, hr, if_false, List.length_cons]
      omega

/-- C14 (the code): the scan loop terminates on every stream, with any bound
of at least `bytes.length + 2` calls, and examines at most `bytes.length + 1`
records; the bound `bytes.length` fails: on the one-byte stream `x` with the
target `y` two records are examined, `x` and the empty record delivered at the
end of the stream. -/
theorem C14_scan_terminates_count_bound (bytes target : List Nat) :
    (∃ r, scan bytes target = some r ∧
      (∀ fuel, bytes.length + 2 ≤ fuel →
        scan_loop target fuel (openStream bytes) 0 = some r) ∧
      r.lines_checked ≤ bytes.length + 1) ∧
    scan [120] [121] = some { lines_checked := 2, found := false } := by
  refine ⟨⟨_, scan_eq bytes target, ?_, ?_⟩, by decide⟩
  · intro fuel hf
    rw [scan_loop_enough_fuel bytes target fuel hf, scan_eq]
  · have h1 := searchRecords_lines_checked_le target (logicalLines bytes ++ [[]]) 0
    have h2 := logicalLines_length_le bytes.length bytes (le_refl _)
    simp only [List.length_append, List.length_singleton] at h1
    omega

/-- C16: the concatenation of the records delivered to the scan loop, in
order, is the stream with every CR and LF byte removed; and when no delivered
record equals the target the scan examines all of them. -/
theorem C16_records_concatenate_to_stream (bytes : List Nat) :
    (records bytes).flatten = stripTerminators bytes ∧
    ∀ target : List Nat, target ∉ records bytes →
      scan bytes target
        = some { lines_checked := (records bytes).length, found := false } := by
  refine ⟨?_, fun target h => scan_not_delivered bytes target h⟩
  rw [records_eq, List.flatten_append, logicalLines_flatten bytes.length bytes (le_refl _)]
  simp

/-- C16 at the stream `a` CR LF CR `b` LF with the target `c`: the records
concatenate to `ab` and all four are examined. -/
theorem C16_records_concatenate_to_stream_witness :
    [99] ∉ records [97, 13, 10, 13, 98, 10] ∧
    (records [97, 13, 10, 13, 98, 10]).flatten = [97, 98] ∧
    scan [97, 13, 10, 13, 98, 10] [99] = some { lines_checked := 4, found := false } :=
  ⟨by decide,
    (C16_records_concatenate_to_stream [97, 13, 10, 13, 98, 10]).1,
    (C16_records_concatenate_to_stream [97, 13, 10, 13, 98, 10]).2 [99] (by decide)⟩

/-- C17: scanning any stream with the empty target reports `found = true`.
The call of `getline_safe` that reaches the end of the stream with nothing
accumulated returns an empty record with only `eofbit` set, so the loop
condition (not `fail()`) holds and the body runs with that record; the call
after it sets `failbit`. -/
theorem C17_empty_target_always_found (bytes : List Nat) :
    (∃ r, scan bytes [] = some r ∧ r.found = true) ∧
    getline_safe { buf := [], eofbit := false, failbit := false }
      = ({ buf := [], eofbit := true, failbit := false }, []) ∧
    (getline_safe { buf := [], eofbit := false, failbit := false }).1.fail = false ∧
    (getline_safe { buf := [], eofbit := true, failbit := false }).1.fail = true ∧
    ([] : List Nat) ∈ records bytes := by
  refine ⟨?_, by decide, by decide, by decide, ?_⟩
  · obtain ⟨r, hr, hf⟩ := scan_found_iff bytes []
    exact ⟨r, hr, hf.2 (Or.inr rfl)⟩
  · rw [records_eq]; simp

/-! ## The two platforms -/

theorem keyPerm_eq_13 (k : Nat) : keyPerm k = 13 ↔ k = 10 := by
  unfold keyPerm
  split_ifs <;> omega

theorem keyPerm_eq_8 (k : Nat) : keyPerm k = 8 ↔ k = 127 := by
  unfold keyPerm
  split_ifs <;> omega

theorem beforeCommit_map_keyPerm (ks : List Nat) :
    beforeCommit 13 (ks.map keyPerm) = (beforeCommit 10 ks).map keyPerm := by
  induction ks with
  | nil => simp [beforeCommit]
  | cons k ks ih =>
    by_cases hk : k = 10
    · subst hk
      rw [List.map_cons, show keyPerm 10 = 13 from by decide, beforeCommit_cons_self,
        beforeCommit_cons_self]
      rfl
    · have hk2 : keyPerm k ≠ 13 := fun e => hk ((keyPerm_eq_13 k).1 e)
      rw [List.map_cons, beforeCommit_cons_ne _ _ _ hk2, beforeCommit_cons_ne _ _ _ hk, ih,
        List.map_cons]

theorem foldl_erase_map_keyPerm (l : List Nat) :
    ∀ buf : List Nat,
      (l.map keyPerm).foldl (fun buf k => if k = 8 then buf.dropLast else buf ++ [k])
          (buf.map keyPerm)
        = (l.foldl (fun buf k => if k = 127 then buf.dropLast else buf ++ [k]) buf).map
            keyPerm := by
  induction l with
  | nil => intro buf; simp
  | cons k l ih =>
    intro buf
    rw [List.map_cons, List.foldl_cons, List.foldl_cons, ← ih]
    by_cases hk : k = 127
    · have hk2 : keyPerm k = 8 := (keyPerm_eq_8 k).2 hk
      rw [if_pos hk, if_pos hk2, List.map_dropLast]
    · have hk2 : ¬ keyPerm k = 8 := fun e => hk ((keyPerm_eq_8 k).1 e)
      rw [if_neg hk, if_neg hk2, List.map_append, List.map_singleton]

theorem capture_body_console_shown (erase c : Nat) (st : CaptureState) :
    (capture_body erase true c st).console = st.console ++ keyEcho erase id c := by
  unfold capture_body keyEcho
  by_cases h : c = erase <;> simp [h]

/-- In show mode the loop writes, for each key it reads up to and including
the commit key, the echo of that key. -/
theorem capture_loop_console_shown (commit erase : Nat) :
    ∀ (keys : List Nat) (c : Nat) (st : CaptureState), c ≠ commit → commit ∈ keys →
      (capture_loop commit erase true keys c st).2.console
        = st.console ++ (keysRead commit keys).flatMap (keyEcho erase id) := by
  intro keys
  induction keys with
  | nil => intro c st _ hm; simp at hm
  | cons key rest ih =>
    intro c st hc hm
    rw [capture_loop, if_neg hc]
    by_cases hk : key = commit
    · subst hk
      rw [capture_loop_at_commit, capture_body_console_shown, keysRead,
        beforeCommit_cons_self]
      simp
    · have hm2 : commit ∈ rest := by
        rcases List.mem_cons.1 hm with e | m
        · exact absurd e.symm hk
        · exact m
      rw [ih key _ hk hm2, capture_body_console_shown, keysRead, keysRead,
        beforeCommit_cons_ne commit key rest hk]
      simp

theorem keysRead_map_keyPerm (ks : List Nat) :
    keysRead 13 (ks.map keyPerm) = (keysRead 10 ks).map keyPerm := by
  rw [keysRead, keysRead, beforeCommit_map_keyPerm]
  simp [keyPerm]

theorem keyEcho_keyPerm (k : Nat) : keyEcho 8 id (keyPerm k) = keyEcho 127 keyPerm k := by
  unfold keyEcho
  by_cases hk : k = 127
  · simp [hk, keyPerm]
  · have hk2 : ¬ keyPerm k = 8 := fun e => hk ((keyPerm_eq_8 k).1 e)
    simp [hk, hk2]

theorem flatMap_keyEcho_no_erase (l : List Nat) (h : 127 ∉ l) :
    l.flatMap (keyEcho 127 keyPerm) = (l.flatMap (keyEcho 127 id)).map keyPerm := by
  induction l with
  | nil => simp
  | cons k l ih =>
    have hk : k ≠ 127 := fun e => h (by simp [e])
    have hl : 127 ∉ l := fun m => h (by simp [m])
    simp only [List.flatMap_cons, List.map_append, ih hl]
    simp [keyEcho, hk]

/-- C15 (the claim fails): for the Linux keys erase, commit in show mode the
Linux loop writes backspace, space, backspace, LF; the Windows loop on the
renamed keys writes backspace, space, backspace, CR, which is not the Linux
output mapped by the key permutation (127, space, 127, CR); the whole Windows
capture writes one more LF after the loop. -/
theorem C15_console_not_mapped_by_keyPerm :
    (capture_loop 10 127 true [127, 10] 0 { password := [], console := [] }).2.console
      = [8, 32, 8, 10] ∧
    (capture_loop 13 8 true ([127, 10].map keyPerm) 0
      { password := [], console := [] }).2.console = [8, 32, 8, 13] ∧
    ¬ ((capture_loop 13 8 true ([127, 10].map keyPerm) 0
          { password := [], console := [] }).2.console
        = ((capture_loop 10 127 true [127, 10] 0
          { password := [], console := [] }).2.console).map keyPerm) ∧
    ¬ ((windows_capture true ([127, 10].map keyPerm)).map Prod.snd
        = (linux_capture true [127, 10]).map (fun r => r.2.map keyPerm)) := by
  decide

/-- C15 (amended): for keystrokes `ks` containing byte 10, the password the
Windows variant captures on the renamed keys is the renamed password the Linux
variant captures on `ks`.  In show mode the loops' console outputs correspond
key by key: where Linux echoes a key byte `k` Windows echoes `keyPerm k`, and
the erase sequence is the same three bytes on both; so the Windows loop output
is the renamed Linux loop output when no erase key is read before commit.
After the loop Windows writes one more LF. -/
theorem C15_windows_is_linux_up_to_key_codes (show_password : Bool) (ks : List Nat)
    (h : 10 ∈ ks) :
    (∃ pw, (linux_capture show_password ks).map Prod.fst = some pw ∧
      (windows_capture show_password (ks.map keyPerm)).map Prod.fst
        = some (pw.map keyPerm)) ∧
    (capture_loop 10 127 true ks 0 { password := [], console := [] }).2.console
      = (keysRead 10 ks).flatMap (keyEcho 127 id) ∧
    (capture_loop 13 8 true (ks.map keyPerm) 0 { password := [], console := [] }).2.console
      = (keysRead 10 ks).flatMap (keyEcho 127 keyPerm) ∧
    (127 ∉ beforeCommit 10 ks →
      (capture_loop 13 8 true (ks.map keyPerm) 0 { password := [], console := [] }).2.console
        = ((capture_loop 10 127 true ks 0
            { password := [], console := [] }).2.console).map keyPerm) ∧
    (windows_capture true (ks.map keyPerm)).map Prod.snd
      = some ((keysRead 10 ks).flatMap (keyEcho 127 keyPerm) ++ [10]) := by
  have hw : 13 ∈ ks.map keyPerm := List.mem_map.2 ⟨10, h, by decide⟩
  have hlin := capture_loop_console_shown 10 127 ks 0 { password := [], console := [] }
    (by decide) h
  have hwin := capture_loop_console_shown 13 8 (ks.map keyPerm) 0
    { password := [], console := [] } (by decide) hw
  rw [keysRead_map_keyPerm, List.flatMap_map] at hwin
  simp only [List.nil_append] at hlin hwin
  have hfun : (fun k => keyEcho 8 id (keyPerm k)) = keyEcho 127 keyPerm :=
    funext keyEcho_keyPerm
  rw [hfun] at hwin
  obtain ⟨l1, _, l3⟩ := capture_then_pop_back 10 127 show_password (by decide) (by decide) ks h
  obtain ⟨w1, _, w3⟩ :=
    capture_then_pop_back 13 8 show_password (by decide) (by decide) (ks.map keyPerm) hw
  obtain ⟨t1, _, t3⟩ :=
    capture_then_pop_back 13 8 true (by decide) (by decide) (ks.map keyPerm) hw
  refine ⟨⟨eraseFold 127 (beforeCommit 10 ks), ?_, ?_⟩, hlin, hwin, ?_, ?_⟩
  · simp [linux_capture, l1, l3]
  · have hf := foldl_erase_map_keyPerm (beforeCommit 10 ks) []
    simp only [List.map_nil] at hf
    simp only [windows_capture, w1, w3, if_true, Option.map_some', Option.map_map]
    rw [beforeCommit_map_keyPerm, eraseFold, eraseFold, hf]
  · intro hne
    have hk : 127 ∉ keysRead 10 ks := by
      intro hm
      rcases List.mem_append.1 hm with m | m
      · exact hne m
      · simp at m
    rw [hwin, hlin, flatMap_keyEcho_no_erase _ hk]
  · simp only [windows_capture, t1, t3, if_true, Option.map_some', Option.map_map]
    rw [hwin]

/-- C15 (amended) at the Linux keys `pass`, erase, `word`, commit: the Windows
password on the renamed keys is `pasword`, and the Windows output in show mode
is the echoed keys with the erase sequence, CR and the final LF. -/
theorem C15_windows_is_linux_up_to_key_codes_witness :
    10 ∈ scenarioKeys 10 127 ∧
    (∃ pw, (linux_capture true (scenarioKeys 10 127)).map Prod.fst = some pw ∧
      (windows_capture true ((scenarioKeys 10 127).map keyPerm)).map Prod.fst
        = some (pw.map keyPerm)) ∧
    (windows_capture true ((scenarioKeys 10 127).map keyPerm)).map Prod.snd
      = some [112, 97, 115, 115, 8, 32, 8, 119, 111, 114, 100, 13, 10] :=
  ⟨by decide,
    (C15_windows_is_linux_up_to_key_codes true (scenarioKeys 10 127) (by decide)).1,
    (C15_windows_is_linux_up_to_key_codes true (scenarioKeys 10 127) (by decide)).2.2.2.2⟩

end PasswordFinder
